import Mathlib

/-!
Verification of the cue data model of `webvtt-py` (`src/webvtt/structures.py`)
against its natural-language specification.

The Python source is shallowly embedded: strings become `List Char` / `String`,
Python floats holding second counts become exact rationals `ℚ` (the spec only
speaks about millisecond precision), fallible operations return `Option`, and
the regular expressions of the source are embedded as executable backtracking
matchers that follow Python `re` semantics (leftmost match, greedy/lazy
priority order, `.` not matching a newline, `\d` taken as an ASCII digit).
-/

/-! ### Digit and padding utilities (Python `int()` and `'{:0Nd}'` formatting) -/

/-- The decimal digit character for `n % 10`. -/
def digitChar (n : Nat) : Char := Char.ofNat (48 + n % 10)

/-- Decimal digits of `n`, most significant first, as produced by Python
`'{:d}'` formatting.  Fuel-based so that the kernel can evaluate it; `n + 1`
units of fuel always suffice. -/
def natToDigitsAux : Nat → Nat → List Char
  | 0, _ => []
  | fuel + 1, n => if n < 10 then [digitChar n] else natToDigitsAux fuel (n / 10) ++ [digitChar n]

/-- Decimal digit string of a natural number. -/
def natToDigits (n : Nat) : List Char := natToDigitsAux (n + 1) n

/-- Left-pad a digit string with `'0'` to width `w` (Python `'{:0Nd}'`). -/
def padZeros (w : Nat) (ds : List Char) : List Char :=
  List.replicate (w - ds.length) '0' ++ ds

/-- Numeric value of a decimal digit string, as Python `int()` computes it on
a string of digits. -/
def natOfDigits (ds : List Char) : Nat :=
  ds.foldl (fun a c => a * 10 + (c.toNat - 48)) 0

/-! ### Timestamp parsing

The source compiles `TIMESTAMP_PATTERN = re.compile('(\d+)?:?(\d{2}):(\d{2})[.,](\d{3})')`
and applies it with `re.match`, i.e. the match must start at position 0 of the
string but need not span it.  The pattern is embedded as an explicit
backtracking matcher: the optional greedy group `(\d+)?` tries the longest
digit prefix first, then shorter ones, then absence; the optional `:?` tries
to consume a colon before falling back to the empty match; the remainder of
the pattern is a fixed 9-character shape. -/

/-- Matches `(\d{2}):(\d{2})[.,](\d{3})` at the head of the list, returning
the captured (minutes, seconds, milliseconds) values. -/
def matchMSM (cs : List Char) : Option (Nat × Nat × Nat) :=
  match cs with
  | m1 :: m2 :: c :: s1 :: s2 :: sep :: d1 :: d2 :: d3 :: _ =>
    if m1.isDigit && m2.isDigit && c = ':' && s1.isDigit && s2.isDigit
        && (sep = '.' || sep = ',') && d1.isDigit && d2.isDigit && d3.isDigit then
      some (natOfDigits [m1, m2], natOfDigits [s1, s2], natOfDigits [d1, d2, d3])
    else none
  | _ => none

/-- The `:?` part of the pattern followed by the fixed tail: greedily try to
consume a colon first, then fall back to not consuming it. -/
def matchColonTail (cs : List Char) : Option (Nat × Nat × Nat) :=
  match cs with
  | ':' :: rest =>
    match matchMSM rest with
    | some r => some r
    | none => matchMSM cs
  | _ => matchMSM cs

/-- The optional greedy hour group `(\d+)?`: try taking `k` leading characters
as the hour digits (the caller passes `k` = length of the maximal digit
prefix, so all attempted prefixes are digit runs), backtracking down to one
digit and finally to the group being absent (`none` hours). -/
def tryHoursLen : Nat → List Char → Option (Option Nat × Nat × Nat × Nat)
  | 0, cs =>
    match matchColonTail cs with
    | some (m, s, ms) => some (none, m, s, ms)
    | none => none
  | k + 1, cs =>
    match matchColonTail (cs.drop (k + 1)) with
    | some (m, s, ms) => some (some (natOfDigits (cs.take (k + 1))), m, s, ms)
    | none => tryHoursLen k cs

/-- Length of the maximal ASCII-digit prefix. -/
def digitPrefixLen (cs : List Char) : Nat := (cs.takeWhile Char.isDigit).length

/-- `re.match(TIMESTAMP_PATTERN, ·)` on a character list: captured groups
`(hours?, minutes, seconds, milliseconds)`, or `none` when there is no match
starting at position 0. -/
def timestampMatch (cs : List Char) : Option (Option Nat × Nat × Nat × Nat) :=
  tryHoursLen (digitPrefixLen cs) cs

/-- `Caption._to_seconds`: `hours * 3600 + minutes * 60 + seconds + milliseconds / 1000`. -/
def to_seconds (hours minutes seconds milliseconds : Nat) : ℚ :=
  hours * 3600 + minutes * 60 + seconds + (milliseconds : ℚ) / 1000

/-- `Caption._parse_timestamp`: `re.match` against the timestamp pattern, then
each captured group through `int(x) if x else 0` (an absent hours group counts
as 0) and `_to_seconds`.  `none` models the raised `MalformedCaptionError`. -/
def parse_timestamp (s : String) : Option ℚ :=
  match timestampMatch s.data with
  | some (h, m, sec, ms) => some (to_seconds (h.getD 0) m sec ms)
  | none => none

/-! ### Timestamp formatting -/

/-- Python `int()` applied to a rational: truncation toward zero. -/
def pyInt (q : ℚ) : ℤ := if 0 ≤ q then ⌊q⌋ else ⌈q⌉

/-- Round to the nearest integer, ties to even: the rounding Python applies
when formatting a value to a fixed number of decimal digits. -/
def roundHalfEven (q : ℚ) : ℤ :=
  if q - ⌊q⌋ < 1/2 then ⌊q⌋
  else if 1/2 < q - ⌊q⌋ then ⌊q⌋ + 1
  else if ⌊q⌋ % 2 = 0 then ⌊q⌋ else ⌊q⌋ + 1

/-- Python `'{:02d}'` on an integer: decimal digits zero-padded to width at
least 2 (a negative value carries a leading minus sign). -/
def fmtInt02 (n : ℤ) : List Char :=
  if n < 0 then '-' :: padZeros 1 (natToDigits n.natAbs)
  else padZeros 2 (natToDigits n.toNat)

/-- Python `'{:06.3f}'` on a rational number of seconds: exactly three decimal
digits (rounding half-to-even at millisecond precision) and the whole string
zero-padded to width 6, i.e. the integer part padded to two digits.  The
source applies this to a float; sign-of-negative-zero behaviour of floats is
not modelled (the spec declares negative inputs undefined behaviour). -/
def fmt063 (s : ℚ) : List Char :=
  let milli := roundHalfEven (s * 1000)
  if milli < 0 then
    '-' :: (padZeros 1 (natToDigits (milli.natAbs / 1000)) ++ '.' :: padZeros 3 (natToDigits (milli.natAbs % 1000)))
  else
    padZeros 2 (natToDigits (milli.toNat / 1000)) ++ '.' :: padZeros 3 (natToDigits (milli.toNat % 1000))

/-- Character-list body of `Caption._to_timestamp`:
`hours = int(t / 3600)`, `minutes = int(t / 60 - hours * 60)`,
`seconds = t - hours * 3600 - minutes * 60`, rendered as
`'{:02d}:{:02d}:{:06.3f}'`. -/
def toTimestampChars (q : ℚ) : List Char :=
  let hours : ℤ := pyInt (q / 3600)
  let minutes : ℤ := pyInt (q / 60 - (hours : ℚ) * 60)
  let seconds : ℚ := q - (hours : ℚ) * 3600 - (minutes : ℚ) * 60
  fmtInt02 hours ++ ':' :: (fmtInt02 minutes ++ ':' :: fmt063 seconds)

/-- `Caption._to_timestamp` as a string-producing function. -/
def to_timestamp (q : ℚ) : String := String.mk (toTimestampChars q)

/-- Declarative reading of the timestamp pattern: the character list starts
with an optional digit run, an optional colon, and the fixed
`DD:DD[.,]DDD` nine-character core, followed by anything. -/
def TimestampShape (cs : List Char) : Prop :=
  ∃ (hd copt : List Char) (m1 m2 s1 s2 sep d1 d2 d3 : Char) (rest : List Char),
    cs = hd ++ copt ++ m1 :: m2 :: ':' :: s1 :: s2 :: sep :: d1 :: d2 :: d3 :: rest ∧
    hd.all Char.isDigit = true ∧ (copt = [] ∨ copt = [':']) ∧
    m1.isDigit = true ∧ m2.isDigit = true ∧ s1.isDigit = true ∧ s2.isDigit = true ∧
    (sep = '.' ∨ sep = ',') ∧ d1.isDigit = true ∧ d2.isDigit = true ∧ d3.isDigit = true

/-! ### Cue model -/

/-- A caption: the backing time fields `_start`/`_end` hold plain seconds
values, plus the optional identifier and the list of text lines. -/
structure Caption where
  startSec : ℚ
  endSec : ℚ
  identifier : Option String
  lines : List String

/-- `Caption.raw_text`: the lines joined with a newline. -/
def raw_text (lines : List String) : String := String.intercalate "\n" lines

/-- Scan for the first `'>'`, failing at a newline or the end of input: the
shortest match of `.*?>` for the tag-stripping pattern (`.` does not match a
newline). -/
def findGt : List Char → Option (List Char)
  | [] => none
  | c :: rest => if c = '>' then some rest else if c = '\n' then none else findGt rest

/-- `re.sub('<.*?>', '', ·)` with fuel (the input length suffices): at each
position, if a shortest bracketed tag starts here, delete it and continue
after it, else keep the character and move on. -/
def stripTagsAux : Nat → List Char → List Char
  | 0, cs => cs
  | fuel + 1, cs =>
    match cs with
    | [] => []
    | c :: rest =>
      if c = '<' then
        match findGt rest with
        | some rest2 => stripTagsAux fuel rest2
        | none => c :: stripTagsAux fuel rest
      else c :: stripTagsAux fuel rest

/-- `Caption._clean_cue_tags`. -/
def clean_cue_tags (s : String) : String := String.mk (stripTagsAux s.data.length s.data)

/-- `Caption.text` (getter): the joined lines with all cue tags stripped. -/
def caption_text (lines : List String) : String := clean_cue_tags (raw_text lines)

/-- A dynamically typed Python value, as far as the text setter cares. -/
inductive PyVal where
  | str (s : String)
  | int (n : ℤ)
  | noneVal
  | listVal (elems : List String)

def PyVal.isStr : PyVal → Bool
  | .str _ => true
  | _ => false

/-- The line-break characters recognised by Python `str.splitlines`. -/
def isLineBreak (c : Char) : Bool :=
  c = '\n' || c = '\r' || c = '\x0b' || c = '\x0c' || c = '\x1c' || c = '\x1d' ||
    c = '\x1e' || c = '\x85' || c = '\u2028' || c = '\u2029'

def splitlinesAux : List Char → List Char → List String
  | [], acc => if acc.isEmpty then [] else [String.mk acc.reverse]
  | '\r' :: '\n' :: rest, acc => String.mk acc.reverse :: splitlinesAux rest []
  | c :: rest, acc =>
    if isLineBreak c then String.mk acc.reverse :: splitlinesAux rest []
    else splitlinesAux rest (c :: acc)

/-- Python `str.splitlines`. -/
def splitlines (s : String) : List String := splitlinesAux s.data []

/-- The `Caption.text` setter: type-check, then replace the whole line list
with the split value.  The error case returns the unchanged caption together
with the `AttributeError` message. -/
def set_text (c : Caption) (v : PyVal) : Caption × Option String :=
  match v with
  | .str s => ({ c with lines := splitlines s }, none)
  | _ => (c, some "String value expected")

/-! ### Markup translator -/

/-- Lazy `.*?` with full backtracking: try the continuation after consuming
0, 1, 2, … non-newline characters, shortest first. -/
def lazyStar {α : Type} (cont : List Char → Option α) : List Char → Option α
  | [] => cont []
  | c :: rest =>
    match cont (c :: rest) with
    | some r => some r
    | none => if c = '\n' then none else lazyStar cont rest

/-- Lazy capture `(.*?)` immediately followed by the literal `close`: capture
the shortest non-newline run up to the first occurrence of `close` (nothing
follows the capture in the span patterns of the source, so the first success
is final). -/
def captureUntil (close : List Char) : List Char → List Char → Option (List Char × List Char)
  | _, [] => none
  | acc, c :: rest =>
    if close.isPrefixOf (c :: rest) then some (acc.reverse, (c :: rest).drop close.length)
    else if c = '\n' then none else captureUntil close (c :: acc) rest

/-- Named HTML entities known to the model of `html.unescape`: the common
subset.  The source calls Python `html.unescape`, whose full HTML5 table also
covers many more names and bare references without semicolons; those are
passed through unchanged here. -/
def entityTable : List (List Char × Char) :=
  [("amp;".data, '&'), ("lt;".data, '<'), ("gt;".data, '>'), ("quot;".data, '"')]

def matchEntity (cs : List Char) : Option (Char × List Char) :=
  (entityTable.find? (fun e => e.1.isPrefixOf cs)).map (fun e => (e.2, cs.drop e.1.length))

def htmlUnescapeAux : Nat → List Char → List Char
  | 0, cs => cs
  | fuel + 1, cs =>
    match cs with
    | [] => []
    | '&' :: rest =>
      match matchEntity rest with
      | some (c, rest2) => c :: htmlUnescapeAux fuel rest2
      | none => '&' :: htmlUnescapeAux fuel rest
    | c :: rest => c :: htmlUnescapeAux fuel rest

/-- Model of Python `html.unescape` (common named entities). -/
def htmlUnescape (s : String) : String := String.mk (htmlUnescapeAux s.data.length s.data)

/-- `Caption.replace_color`: build the replacement for one matched span. -/
def replace_color (tag : Char) (v : String) (content : String) : String :=
  (if tag = 'c' then "" else "<" ++ String.mk [tag] ++ ">") ++
    "<font color=\"" ++ v ++ "\">" ++ htmlUnescape content ++ "</font>" ++
    (if tag = 'c' then "" else "</" ++ String.mk [tag] ++ ">")

/-- After `<TAG…>` in the colour-span pattern: the lazy capture group and the
closing `</TAG>`. -/
def contGt (tag : Char) (cs : List Char) : Option (List Char × List Char) :=
  match cs with
  | '>' :: rest => captureUntil ('<' :: '/' :: tag :: '>' :: []) [] rest
  | _ => none

/-- The second optional qualifier `(?:\..*?)?` before `>`: greedily try the
dotted group (with its lazily growing tail) first, then skip it. -/
def afterQ2 (tag : Char) (cs : List Char) : Option (List Char × List Char) :=
  match cs with
  | '.' :: rest =>
    match lazyStar (contGt tag) rest with
    | some r => some r
    | none => contGt tag cs
  | _ => contGt tag cs

/-- The mandatory `\.className` followed by the second qualifier. -/
def contDotK (tag : Char) (k : List Char) (cs : List Char) :
    Option (List Char × List Char) :=
  if ('.' :: k).isPrefixOf cs then afterQ2 tag (cs.drop (k.length + 1)) else none

/-- Matching `<TAG(?:\..*?)?\.K(?:\..*?)?>(.*?)</TAG>` at the head of the
list: the captured content and the remainder after the match. -/
def matchColorSpanAt (tag : Char) (k : List Char) (cs : List Char) :
    Option (List Char × List Char) :=
  match cs with
  | c1 :: c2 :: rest =>
    if c1 = '<' ∧ c2 = tag then
      match rest with
      | '.' :: rest2 =>
        match lazyStar (contDotK tag k) rest2 with
        | some r => some r
        | none => contDotK tag k rest
      | _ => contDotK tag k rest
    else none
  | _ => none

/-- `re.sub` with the colour-span pattern: scan left to right, replacing each
match by `replace_color` of its captured content (fuel: the input length). -/
def subColorAux (tag : Char) (k : List Char) (v : String) : Nat → List Char → List Char
  | 0, cs => cs
  | fuel + 1, cs =>
    match matchColorSpanAt tag k cs with
    | some (content, rest) =>
      (replace_color tag v (String.mk content)).data ++ subColorAux tag k v fuel rest
    | none =>
      match cs with
      | [] => []
      | c :: rest => c :: subColorAux tag k v fuel rest

/-- `re.search` with the colour-span pattern. -/
def searchColorSpan (tag : Char) (k : List Char) : List Char → Bool
  | [] => (matchColorSpanAt tag k []).isSome
  | c :: rest => (matchColorSpanAt tag k (c :: rest)).isSome || searchColorSpan tag k rest

/-- `Caption._replace_colors`: for each `(class, colour)` entry in mapping
order, run a search-guarded global substitution on the accumulated text. -/
def replace_colors (rawText : String) (colours : List (String × String)) (tag : Char) :
    String :=
  colours.foldl
    (fun result kv =>
      if searchColorSpan tag kv.1.data result.data then
        String.mk (subColorAux tag kv.1.data kv.2 result.data.length result.data)
      else result)
    rawText

/-- After `<TAG.…`: the rest of the detection pattern, `>` then a lazy run
then the literal closing tag. -/
def detectClose (tag : Char) (cs : List Char) : Option (List Char) :=
  if ('<' :: '/' :: tag :: '>' :: []).isPrefixOf cs then some (cs.drop 4) else none

def detectGt (tag : Char) (cs : List Char) : Option (List Char) :=
  match cs with
  | '>' :: rest => lazyStar (detectClose tag) rest
  | _ => none

/-- Does `<TAG\..*?>.*?</TAG>` (the line-69 detection pattern, dotted
qualifier mandatory) match at the head of the list? -/
def detectTagAt (tag : Char) (cs : List Char) : Bool :=
  match cs with
  | c1 :: c2 :: c3 :: rest =>
    decide (c1 = '<' ∧ c2 = tag ∧ c3 = '.') && (lazyStar (detectGt tag) rest).isSome
  | _ => false

/-- `re.search` with the detection pattern. -/
def searchTag (tag : Char) : List Char → Bool
  | [] => detectTagAt tag []
  | c :: rest => detectTagAt tag (c :: rest) || searchTag tag rest

/-- `Caption.to_srt_formatted`: iterate the four tag families in order over
the progressively rewritten text; when no family's detection pattern fired at
all, fall back to the plain tag-stripped text. -/
def to_srt_formatted (lines : List String) (colours : List (String × String)) : String :=
  let step := fun (st : String × Bool) (tag : Char) =>
    if searchTag tag st.1.data then (replace_colors st.1 colours tag, false) else st
  let res := (['c', 'i', 'b', 'u'] : List Char).foldl step (raw_text lines, true)
  if res.2 then caption_text lines else res.1

/-- Spec-side reading of C3's span form `<FAMILY(.anything)?>...</FAMILY>`:
the detection pattern with the dotted qualifier optional, following the
claim's words. -/
def specDetectTagAt (tag : Char) (cs : List Char) : Bool :=
  match cs with
  | c1 :: c2 :: rest =>
    decide (c1 = '<' ∧ c2 = tag) &&
      (match rest with
       | '.' :: rest2 =>
         (lazyStar (detectGt tag) rest2).isSome || (detectGt tag rest).isSome
       | _ => (detectGt tag rest).isSome)
  | _ => false

def specSearchTag (tag : Char) : List Char → Bool
  | [] => specDetectTagAt tag []
  | c :: rest => specDetectTagAt tag (c :: rest) || specSearchTag tag rest

/-- Spec-side index formulation of the tag stripper (C7): position `j` closes
a shortest tag match starting at `i` when `cs[j] = '>'` and no character
strictly between is a `'>'` or a newline. -/
def specSpanEnd (cs : List Char) (i : Nat) : Option Nat :=
  (List.range cs.length).find? (fun j =>
    decide (i < j) && decide (cs.getD j ' ' = '>') &&
      ((cs.drop (i + 1)).take (j - i - 1)).all (fun c => !decide (c = '>') && !decide (c = '\n')))

/-- The leftmost shortest `<...>` match, as start/end indices. -/
def specLeftmost (cs : List Char) : Option (Nat × Nat) :=
  (List.range cs.length).findSome? (fun i =>
    if cs.getD i ' ' = '<' then (specSpanEnd cs i).map (fun j => (i, j)) else none)

/-- Spec-side tag stripping: repeatedly delete the leftmost shortest
bracketed substring. -/
def specStripAux : Nat → List Char → List Char
  | 0, cs => cs
  | fuel + 1, cs =>
    match specLeftmost cs with
    | none => cs
    | some (i, j) => cs.take i ++ specStripAux fuel (cs.drop (j + 1))

/-- The spec's description of the `text` property: `raw_text` with every
`<...>` substring removed, shortest match first, leftmost first. -/
def specCleanTags (s : String) : String := String.mk (specStripAux s.data.length s.data)

/-! ### Style extractor -/

/-- Python whitespace (`\s`, `str.strip`), ASCII subset. -/
def isPySpace (c : Char) : Bool :=
  c = ' ' || c = '\t' || c = '\n' || c = '\r' || c = '\x0b' || c = '\x0c'

/-- Python `str.strip`. -/
def pyStrip (s : String) : String :=
  String.mk (((s.data.dropWhile isPySpace).reverse.dropWhile isPySpace).reverse)

/-- `Style.text`: the stripped lines joined with no separator. -/
def style_text (lines : List String) : String := String.join (lines.map pyStrip)

def contBrace (cs : List Char) : Option (List Char) :=
  match cs with
  | '\x7d' :: rest => some rest
  | _ => none

def contSemi (cs : List Char) : Option (List Char) :=
  match cs with
  | ';' :: rest => lazyStar contBrace rest
  | _ => none

/-- The lazy colour-value capture `(.*?);` together with the trailing `.*?}`
of the rule pattern: grow the capture until a semicolon from which a closing
brace is reachable without a newline. -/
def lazyCapColour : List Char → List Char → Option (List Char × List Char)
  | _, [] => none
  | acc, c :: rest =>
    match contSemi (c :: rest) with
    | some rest2 => some (acc.reverse, rest2)
    | none => if c = '\n' then none else lazyCapColour (c :: acc) rest

def contColor (cs : List Char) : Option (List Char × List Char) :=
  if ("color:".data).isPrefixOf cs then lazyCapColour [] (cs.drop 6) else none

/-- Matching `::cue\(\.([^)]+)\)\s*{.*?color:(.*?);.*?}` at the head of the
list: the class-name capture, the colour capture and the remainder.  The
greedy `[^)]+` runs to the first `)`; the greedy `\s*` runs to the first
non-whitespace character; both are forced, so no backtracking arises there. -/
def matchColoursAt (cs : List Char) : Option (List Char × List Char × List Char) :=
  if ("::cue(.".data).isPrefixOf cs then
    let cs1 := cs.drop 7
    let kls := cs1.takeWhile (fun c => !decide (c = ')'))
    if kls.isEmpty then none
    else
      match cs1.drop kls.length with
      | ')' :: cs2 =>
        match cs2.dropWhile isPySpace with
        | '\x7b' :: cs3 =>
          match lazyStar contColor cs3 with
          | some (v, rest) => some (kls, v, rest)
          | none => none
        | _ => none
      | _ => none
  else none

def findallColoursAux : Nat → List Char → List (List Char × List Char)
  | 0, _ => []
  | fuel + 1, cs =>
    match matchColoursAt cs with
    | some (k, v, rest) => (k, v) :: findallColoursAux fuel rest
    | none =>
      match cs with
      | [] => []
      | _ :: rest => findallColoursAux fuel rest

/-- `COLOURS_PATTERN.findall`: all non-overlapping matches, left to right. -/
def findallColours (cs : List Char) : List (String × String) :=
  (findallColoursAux cs.length cs).map (fun p => (String.mk p.1, String.mk p.2))

/-- Python `dict` insertion: an existing key keeps its position but takes the
new value; a new key is appended. -/
def pyDictInsert (d : List (String × String)) (k v : String) : List (String × String) :=
  if d.any (fun p => decide (p.1 = k)) then
    d.map (fun p => if p.1 = k then (k, v) else p)
  else d ++ [(k, v)]

/-- Python `dict(zip(ks, vs))` built from a list of pairs. -/
def pyDict (ps : List (String × String)) : List (String × String) :=
  ps.foldl (fun d p => pyDictInsert d p.1 p.2) []

def dictLookup (d : List (String × String)) (k : String) : Option String :=
  (d.find? (fun p => decide (p.1 = k))).map (fun p => p.2)

/-- `.replace(" ", "")` on a captured colour value. -/
def removeSpaces (s : String) : String :=
  String.mk (s.data.filter (fun c => !decide (c = ' ')))

/-- `Style.colours`: find all rules, despace the values, build the dict. -/
def style_colours (lines : List String) : List (String × String) :=
  pyDict ((findallColours (style_text lines).data).map (fun p => (p.1, removeSpaces p.2)))

/-- The character set allowed between a `<` and its closing `>` by the
shortest-match tag pattern: anything except `>` and the newline. -/
def okChar (c : Char) : Bool := !decide (c = '>') && !decide (c = '\n')

/-! ### Lemmas about digit rendering -/

theorem digitChar_isDigit (n : Nat) : (digitChar n).isDigit = true := by
  rw [digitChar]
  have h : n % 10 < 10 := Nat.mod_lt _ (by norm_num)
  set m := n % 10 with hm
  interval_cases m <;> decide

theorem digitChar_toNat (n : Nat) : (digitChar n).toNat = 48 + n % 10 := by
  rw [digitChar]
  have h : n % 10 < 10 := Nat.mod_lt _ (by norm_num)
  set m := n % 10 with hm
  interval_cases m <;> decide

theorem natToDigitsAux_all_digit : ∀ fuel n, ((natToDigitsAux fuel n).all Char.isDigit) = true
  | 0, _ => rfl
  | fuel + 1, n => by
    rw [natToDigitsAux]
    by_cases h : n < 10
    · simp [h, digitChar_isDigit]
    · simp [h, List.all_append, natToDigitsAux_all_digit fuel (n / 10), digitChar_isDigit]

theorem natToDigits_all_digit (n : Nat) : ((natToDigits n).all Char.isDigit) = true :=
  natToDigitsAux_all_digit _ _

theorem natOfDigits_snoc (xs : List Char) (c : Char) :
    natOfDigits (xs ++ [c]) = natOfDigits xs * 10 + (c.toNat - 48) := by
  rw [natOfDigits, natOfDigits, List.foldl_append]
  rfl

theorem natToDigitsAux_value : ∀ fuel n, n < fuel → natOfDigits (natToDigitsAux fuel n) = n
  | 0, _, h => absurd h (Nat.not_lt_zero _)
  | fuel + 1, n, h => by
    rw [natToDigitsAux]
    by_cases h10 : n < 10
    · rw [if_pos h10]
      have : natOfDigits [digitChar n] = n % 10 := by
        rw [natOfDigits]
        simp [List.foldl_cons, digitChar_toNat]
      rw [this, Nat.mod_eq_of_lt h10]
    · rw [if_neg h10, natOfDigits_snoc]
      have hdiv : n / 10 < fuel := by
        have h1 : n / 10 < n := Nat.div_lt_self (by omega) (by norm_num)
        omega
      rw [natToDigitsAux_value fuel (n / 10) hdiv, digitChar_toNat]
      omega

theorem natToDigits_value (n : Nat) : natOfDigits (natToDigits n) = n :=
  natToDigitsAux_value (n + 1) n (Nat.lt_succ_self n)

theorem natOfDigits_cons_zero (ds : List Char) : natOfDigits ('0' :: ds) = natOfDigits ds := by
  have h : (0 : Nat) * 10 + ('0'.toNat - 48) = 0 := by decide
  rw [natOfDigits, natOfDigits, List.foldl_cons, h]

theorem natOfDigits_padZeros (w : Nat) (ds : List Char) :
    natOfDigits (padZeros w ds) = natOfDigits ds := by
  rw [padZeros]
  induction w - ds.length with
  | zero => rfl
  | succ j ih => rw [List.replicate_succ, List.cons_append, natOfDigits_cons_zero, ih]

theorem padZeros_all_digit (w n : Nat) : ((padZeros w (natToDigits n)).all Char.isDigit) = true := by
  rw [padZeros, List.all_append, Bool.and_eq_true]
  refine ⟨?_, natToDigits_all_digit n⟩
  simp only [List.all_eq_true, List.mem_replicate]
  rintro c ⟨-, rfl⟩
  decide

theorem natToDigits_lt10 (n : Nat) (h : n < 10) : natToDigits n = [digitChar n] := by
  rw [natToDigits, natToDigitsAux, if_pos h]

theorem natToDigits_lt100 (n : Nat) (h10 : 10 ≤ n) (h : n < 100) :
    natToDigits n = [digitChar (n / 10), digitChar n] := by
  obtain ⟨m, rfl⟩ : ∃ m, n = m + 1 := ⟨n - 1, by omega⟩
  rw [natToDigits, natToDigitsAux, if_neg (by omega), natToDigitsAux, if_pos (by omega)]
  rfl

theorem natToDigits_lt1000 (n : Nat) (h100 : 100 ≤ n) (h : n < 1000) :
    natToDigits n = [digitChar (n / 100), digitChar (n / 10), digitChar n] := by
  obtain ⟨m, rfl⟩ : ∃ m, n = m + 2 := ⟨n - 2, by omega⟩
  rw [natToDigits, natToDigitsAux, if_neg (by omega), natToDigitsAux, if_neg (by omega),
    natToDigitsAux, if_pos (by omega), Nat.div_div_eq_div_mul]
  norm_num

theorem padZeros2_shape (n : Nat) (h : n < 100) :
    padZeros 2 (natToDigits n) = [digitChar (n / 10), digitChar n] := by
  by_cases h10 : n < 10
  · rw [natToDigits_lt10 n h10, padZeros]
    have hz : digitChar (n / 10) = '0' := by
      rw [Nat.div_eq_of_lt h10]; decide
    rw [hz]
    rfl
  · rw [natToDigits_lt100 n (by omega) h, padZeros]
    rfl

theorem padZeros3_shape (n : Nat) (h : n < 1000) :
    padZeros 3 (natToDigits n) = [digitChar (n / 100), digitChar (n / 10), digitChar n] := by
  by_cases h10 : n < 10
  · rw [natToDigits_lt10 n h10, padZeros]
    have hz1 : digitChar (n / 100) = '0' := by rw [Nat.div_eq_of_lt (by omega)]; decide
    have hz2 : digitChar (n / 10) = '0' := by rw [Nat.div_eq_of_lt h10]; decide
    rw [hz1, hz2]
    rfl
  · by_cases h100 : n < 100
    · rw [natToDigits_lt100 n (by omega) h100, padZeros]
      have hz1 : digitChar (n / 100) = '0' := by rw [Nat.div_eq_of_lt (by omega)]; decide
      rw [hz1]
      rfl
    · rw [natToDigits_lt1000 n (by omega) h, padZeros]
      rfl

theorem natOfDigits_pad2 (n : Nat) (h : n < 100) :
    natOfDigits [digitChar (n / 10), digitChar n] = n := by
  rw [← padZeros2_shape n h, natOfDigits_padZeros, natToDigits_value]

theorem natOfDigits_pad3 (n : Nat) (h : n < 1000) :
    natOfDigits [digitChar (n / 100), digitChar (n / 10), digitChar n] = n := by
  rw [← padZeros3_shape n h, natOfDigits_padZeros, natToDigits_value]

theorem natToDigits_ne_nil (n : Nat) : natToDigits n ≠ [] := by
  rw [natToDigits, natToDigitsAux]
  by_cases h : n < 10 <;> simp [h]

theorem takeWhile_append_not (p : Char → Bool) (ds : List Char) (c : Char) (rest : List Char)
    (hds : ds.all p = true) (hc : p c = false) :
    ((ds ++ c :: rest).takeWhile p) = ds := by
  induction ds with
  | nil => simp [List.takeWhile_cons, hc]
  | cons d ds ih =>
    rw [List.all_cons, Bool.and_eq_true] at hds
    simp [List.takeWhile_cons, hds.1, ih hds.2]

/-- Unfolding lemma for `toTimestampChars` once the three numeric components
have been identified (the non-negative case). -/
theorem toTimestampChars_eq (q : ℚ) (H M : ℤ) (mi : ℕ)
    (hH : pyInt (q / 3600) = H) (hM : pyInt (q / 60 - (H : ℚ) * 60) = M)
    (hmi : roundHalfEven ((q - (H : ℚ) * 3600 - (M : ℚ) * 60) * 1000) = (mi : ℤ))
    (hH0 : 0 ≤ H) (hM0 : 0 ≤ M) :
    toTimestampChars q =
      padZeros 2 (natToDigits H.toNat) ++ ':' ::
        (padZeros 2 (natToDigits M.toNat) ++ ':' ::
          (padZeros 2 (natToDigits (mi / 1000)) ++ '.' :: padZeros 3 (natToDigits (mi % 1000)))) := by
  simp only [toTimestampChars, hH, hM, hmi, fmtInt02, fmt063]
  rw [if_neg (not_lt.mpr hH0), if_neg (not_lt.mpr hM0),
    if_neg (not_lt.mpr (Int.natCast_nonneg mi))]
  simp

theorem length_padZeros_pos (w n : Nat) : 0 < (padZeros w (natToDigits n)).length := by
  rw [padZeros, List.length_append]
  have h : 0 < (natToDigits n).length := List.length_pos.mpr (natToDigits_ne_nil n)
  omega

/-- Matching the timestamp pattern against a freshly formatted
`HH:MM:SS.mmm` string recovers exactly the numeric components. -/
theorem timestampMatch_format (hN M S2 ms3 : ℕ) (hM : M < 100) (hS : S2 < 100)
    (hms : ms3 < 1000) :
    timestampMatch (padZeros 2 (natToDigits hN) ++ ':' ::
      (padZeros 2 (natToDigits M) ++ ':' ::
        (padZeros 2 (natToDigits S2) ++ '.' :: padZeros 3 (natToDigits ms3)))) =
    some (some hN, M, S2, ms3) := by
  have hmsm : matchMSM (digitChar (M / 10) :: digitChar M :: ':' ::
      (digitChar (S2 / 10) :: digitChar S2 :: '.' ::
        (digitChar (ms3 / 100) :: digitChar (ms3 / 10) :: digitChar ms3 :: []))) =
      some (M, S2, ms3) := by
    rw [matchMSM, if_pos (by simp [digitChar_isDigit]),
      natOfDigits_pad2 M hM, natOfDigits_pad2 S2 hS, natOfDigits_pad3 ms3 hms]
  rw [padZeros2_shape M hM, padZeros2_shape S2 hS, padZeros3_shape ms3 hms]
  simp only [List.cons_append, List.nil_append]
  rw [timestampMatch, digitPrefixLen,
    takeWhile_append_not Char.isDigit _ ':' _ (padZeros_all_digit 2 hN) (by decide)]
  obtain ⟨k, hk⟩ : ∃ k, (padZeros 2 (natToDigits hN)).length = k + 1 :=
    ⟨(padZeros 2 (natToDigits hN)).length - 1, by have := length_padZeros_pos 2 hN; omega⟩
  rw [hk, tryHoursLen, ← hk, List.drop_left, List.take_left, matchColonTail, hmsm,
    natOfDigits_padZeros, natToDigits_value]

/-! ### Arithmetic facts about the formatting components -/

theorem pyInt_of_nonneg (q : ℚ) (h : 0 ≤ q) : pyInt q = ⌊q⌋ := by
  rw [pyInt, if_pos h]

theorem minutes_eq (q : ℚ) (_h : 0 ≤ q) :
    pyInt (q / 60 - ((⌊q / 3600⌋ : ℤ) : ℚ) * 60) = ⌊q / 60⌋ - 60 * ⌊q / 3600⌋ := by
  have h2 : ((⌊q / 3600⌋ : ℤ) : ℚ) ≤ q / 3600 := Int.floor_le _
  have h1 : ((⌊q / 3600⌋ : ℤ) : ℚ) * 60 ≤ q / 60 := by
    have h3 : ((⌊q / 3600⌋ : ℤ) : ℚ) * 60 ≤ (q / 3600) * 60 :=
      mul_le_mul_of_nonneg_right h2 (by norm_num)
    calc ((⌊q / 3600⌋ : ℤ) : ℚ) * 60 ≤ (q / 3600) * 60 := h3
      _ = q / 60 := by ring
  rw [pyInt, if_pos (by linarith),
    show q / 60 - ((⌊q / 3600⌋ : ℤ) : ℚ) * 60 = q / 60 - ((60 * ⌊q / 3600⌋ : ℤ) : ℚ) by
      push_cast; ring,
    Int.floor_sub_int]

theorem minutes_lb (q : ℚ) (_h : 0 ≤ q) : 0 ≤ ⌊q / 60⌋ - 60 * ⌊q / 3600⌋ := by
  have h1 : (60 * ⌊q / 3600⌋ : ℤ) ≤ ⌊q / 60⌋ := by
    rw [Int.le_floor]
    have h2 : ((⌊q / 3600⌋ : ℤ) : ℚ) ≤ q / 3600 := Int.floor_le _
    push_cast
    nlinarith
  omega

theorem minutes_ub (q : ℚ) (_h : 0 ≤ q) : ⌊q / 60⌋ - 60 * ⌊q / 3600⌋ < 60 := by
  have h1 : ⌊q / 60⌋ < 60 * ⌊q / 3600⌋ + 60 := by
    rw [Int.floor_lt]
    have h2 : q / 3600 < ((⌊q / 3600⌋ : ℤ) : ℚ) + 1 := Int.lt_floor_add_one _
    push_cast
    nlinarith
  omega

theorem seconds_expr_eq (q : ℚ) :
    q - ((⌊q / 3600⌋ : ℤ) : ℚ) * 3600 - (((⌊q / 60⌋ - 60 * ⌊q / 3600⌋ : ℤ) : ℚ)) * 60 =
    q - ((⌊q / 60⌋ : ℤ) : ℚ) * 60 := by
  push_cast
  ring

theorem seconds_lb (q : ℚ) : 0 ≤ q - ((⌊q / 60⌋ : ℤ) : ℚ) * 60 := by
  have h2 : ((⌊q / 60⌋ : ℤ) : ℚ) * 60 ≤ (q / 60) * 60 :=
    mul_le_mul_of_nonneg_right (Int.floor_le _) (by norm_num)
  have h3 : (q / 60) * 60 = q := by ring
  linarith

theorem seconds_ub (q : ℚ) : q - ((⌊q / 60⌋ : ℤ) : ℚ) * 60 < 60 := by
  have h2 : q / 60 < ((⌊q / 60⌋ : ℤ) : ℚ) + 1 := Int.lt_floor_add_one _
  have h3 : (q / 60) * 60 < (((⌊q / 60⌋ : ℤ) : ℚ) + 1) * 60 :=
    mul_lt_mul_of_pos_right h2 (by norm_num)
  have h4 : (q / 60) * 60 = q := by ring
  nlinarith

theorem roundHalfEven_nonneg (q : ℚ) (h : 0 ≤ q) : 0 ≤ roundHalfEven q := by
  have hf : 0 ≤ ⌊q⌋ := Int.floor_nonneg.mpr h
  rw [roundHalfEven]
  split_ifs <;> omega

theorem roundHalfEven_le_of_lt (q : ℚ) (B : ℤ) (h : q < (B : ℚ)) : roundHalfEven q ≤ B := by
  have hf : ⌊q⌋ < B := Int.floor_lt.mpr h
  rw [roundHalfEven]
  split_ifs <;> omega

theorem roundHalfEven_add_int (q : ℚ) (n : ℤ) (hn : n % 2 = 0) :
    roundHalfEven (q + (n : ℚ)) = roundHalfEven q + n := by
  have hf : ⌊q + (n : ℚ)⌋ = ⌊q⌋ + n := Int.floor_add_int q n
  rw [roundHalfEven, roundHalfEven, hf]
  have hr : q + (n : ℚ) - ((⌊q⌋ + n : ℤ) : ℚ) = q - ((⌊q⌋ : ℤ) : ℚ) := by push_cast; ring
  rw [hr]
  split_ifs <;> omega

theorem roundHalfEven_dist (q : ℚ) : |((roundHalfEven q : ℤ) : ℚ) - q| ≤ 1/2 := by
  have h1 : ((⌊q⌋ : ℤ) : ℚ) ≤ q := Int.floor_le q
  have h2 : q < ((⌊q⌋ : ℤ) : ℚ) + 1 := Int.lt_floor_add_one q
  rw [roundHalfEven]
  split_ifs with hc1 hc2 hc3 <;> rw [abs_le] <;> constructor <;> push_cast <;> linarith

example : timestampMatch "01:02:03.456".data = some (some 1, 2, 3, 456) := by decide
example : timestampMatch "02:03.456".data = some (none, 2, 3, 456) := by decide
example : timestampMatch "102:03.456".data = some (some 1, 2, 3, 456) := by decide
example : parse_timestamp "bad" = none := by
  have h : timestampMatch "bad".data = none := by decide
  simp [parse_timestamp, h]
example : parse_timestamp "01:02:03.456" = some (3723456/1000) := by
  have h : timestampMatch "01:02:03.456".data = some (some 1, 2, 3, 456) := by decide
  simp only [parse_timestamp, h, Option.getD_some, to_seconds, Option.some.injEq]
  norm_num
example : to_timestamp (7323/2) = "01:01:01.500" := by
  have h : toTimestampChars (7323/2) =
      padZeros 2 (natToDigits (1 : ℤ).toNat) ++ ':' ::
        (padZeros 2 (natToDigits (1 : ℤ).toNat) ++ ':' ::
          (padZeros 2 (natToDigits (1500 / 1000)) ++ '.' :: padZeros 3 (natToDigits (1500 % 1000)))) := by
    refine toTimestampChars_eq _ 1 1 1500 ?_ ?_ ?_ (by norm_num) (by norm_num)
    · rw [pyInt, if_pos (by norm_num)]; norm_num
    · rw [pyInt, if_pos (by norm_num)]; norm_num
    · rw [roundHalfEven, if_pos (by norm_num)]; norm_num
  rw [to_timestamp, h]
  decide

/-- Parsing a formatted timestamp recovers the three integer components. -/
theorem parse_format_core (q : ℚ) (H M : ℤ) (mi : ℕ)
    (hH : pyInt (q / 3600) = H)
    (hM : pyInt (q / 60 - (H : ℚ) * 60) = M)
    (hmi : roundHalfEven ((q - (H : ℚ) * 3600 - (M : ℚ) * 60) * 1000) = (mi : ℤ))
    (hH0 : 0 ≤ H) (hM0 : 0 ≤ M) (hM60 : M < 60) (hmi60 : mi ≤ 60000) :
    parse_timestamp (to_timestamp q) =
      some ((H : ℚ) * 3600 + (M : ℚ) * 60 + (mi : ℚ) / 1000) := by
  have hchars := toTimestampChars_eq q H M mi hH hM hmi hH0 hM0
  rw [parse_timestamp, to_timestamp]
  have hdata : (String.mk (toTimestampChars q)).data = toTimestampChars q := rfl
  rw [hdata, hchars, timestampMatch_format H.toNat M.toNat (mi / 1000) (mi % 1000)
    (by omega) (by omega) (by omega)]
  simp only [Option.getD_some, to_seconds, Option.some.injEq]
  have hHq : ((H.toNat : ℕ) : ℚ) = (H : ℚ) := by
    exact_mod_cast congrArg (Int.cast : ℤ → ℚ) (Int.toNat_of_nonneg hH0)
  have hMq : ((M.toNat : ℕ) : ℚ) = (M : ℚ) := by
    exact_mod_cast congrArg (Int.cast : ℤ → ℚ) (Int.toNat_of_nonneg hM0)
  have hdm : mi % 1000 + 1000 * (mi / 1000) = mi := Nat.mod_add_div mi 1000
  have hdmq : ((mi % 1000 : ℕ) : ℚ) + 1000 * ((mi / 1000 : ℕ) : ℚ) = (mi : ℚ) := by
    exact_mod_cast congrArg (Nat.cast : ℕ → ℚ) hdm
  rw [hHq, hMq]
  have h1000 : (1000 : ℚ) ≠ 0 := by norm_num
  field_simp
  linarith

/-- The exact value produced by parsing a formatted non-negative time:
the original seconds value rounded half-to-even at millisecond precision. -/
theorem parse_format_eq (q : ℚ) (hq : 0 ≤ q) :
    parse_timestamp (to_timestamp q) =
      some (((roundHalfEven (q * 1000) : ℤ) : ℚ) / 1000) := by
  have hH0 : 0 ≤ ⌊q / 3600⌋ := Int.floor_nonneg.mpr (div_nonneg hq (by norm_num))
  have hM0 : 0 ≤ ⌊q / 60⌋ - 60 * ⌊q / 3600⌋ := minutes_lb q hq
  have hM60 : ⌊q / 60⌋ - 60 * ⌊q / 3600⌋ < 60 := minutes_ub q hq
  have hs0 : 0 ≤ q - ((⌊q / 60⌋ : ℤ) : ℚ) * 60 := seconds_lb q
  have hs60 : q - ((⌊q / 60⌋ : ℤ) : ℚ) * 60 < 60 := seconds_ub q
  have hmilli0 : 0 ≤ roundHalfEven ((q - ((⌊q / 60⌋ : ℤ) : ℚ) * 60) * 1000) :=
    roundHalfEven_nonneg _ (by nlinarith)
  have hmilliB : roundHalfEven ((q - ((⌊q / 60⌋ : ℤ) : ℚ) * 60) * 1000) ≤ 60000 :=
    roundHalfEven_le_of_lt _ 60000 (by push_cast; nlinarith)
  have hmi : ((roundHalfEven ((q - ((⌊q / 60⌋ : ℤ) : ℚ) * 60) * 1000)).toNat : ℤ) =
      roundHalfEven ((q - ((⌊q / 60⌋ : ℤ) : ℚ) * 60) * 1000) := Int.toNat_of_nonneg hmilli0
  have hcore := parse_format_core q ⌊q / 3600⌋ (⌊q / 60⌋ - 60 * ⌊q / 3600⌋)
    (roundHalfEven ((q - ((⌊q / 60⌋ : ℤ) : ℚ) * 60) * 1000)).toNat
    (pyInt_of_nonneg _ (div_nonneg hq (by norm_num)))
    (minutes_eq q hq)
    (by rw [seconds_expr_eq q, hmi])
    hH0 hM0 hM60 (by omega)
  rw [hcore]
  have hsplit : q * 1000 =
      (q - ((⌊q / 60⌋ : ℤ) : ℚ) * 60) * 1000 + ((60000 * ⌊q / 60⌋ : ℤ) : ℚ) := by
    push_cast
    ring
  have hshift : roundHalfEven (q * 1000) =
      roundHalfEven ((q - ((⌊q / 60⌋ : ℤ) : ℚ) * 60) * 1000) + 60000 * ⌊q / 60⌋ := by
    rw [hsplit]
    exact roundHalfEven_add_int _ _ (by omega)
  have hmiq : (((roundHalfEven ((q - ((⌊q / 60⌋ : ℤ) : ℚ) * 60) * 1000)).toNat : ℕ) : ℚ) =
      ((roundHalfEven ((q - ((⌊q / 60⌋ : ℤ) : ℚ) * 60) * 1000) : ℤ) : ℚ) := by
    exact_mod_cast congrArg (Int.cast : ℤ → ℚ) hmi
  rw [hshift, hmiq]
  congr 1
  push_cast
  ring

/-! ### The matcher agrees with the declarative pattern reading -/

theorem takeWhile_append_all (p : Char → Bool) (ds t : List Char) (h : ds.all p = true) :
    (ds ++ t).takeWhile p = ds ++ t.takeWhile p := by
  induction ds with
  | nil => simp
  | cons d ds ih =>
    rw [List.all_cons, Bool.and_eq_true] at h
    simp [List.takeWhile_cons, h.1, ih h.2]

theorem le_digitPrefixLen_append (ds t : List Char) (h : ds.all Char.isDigit = true) :
    ds.length ≤ digitPrefixLen (ds ++ t) := by
  rw [digitPrefixLen, takeWhile_append_all Char.isDigit ds t h, List.length_append]
  omega

theorem take_digits_of_le (cs : List Char) (j : Nat) (h : j ≤ digitPrefixLen cs) :
    (cs.take j).all Char.isDigit = true := by
  rw [digitPrefixLen] at h
  obtain ⟨suf, hsuf⟩ :=
    (List.takeWhile_prefix Char.isDigit : cs.takeWhile Char.isDigit <+: cs)
  have htake : cs.take j = (cs.takeWhile Char.isDigit).take j := by
    conv_lhs => rw [← hsuf]
    rw [List.take_append_eq_append_take, show j - (cs.takeWhile Char.isDigit).length = 0 by
      omega]
    simp
  rw [htake, List.all_eq_true]
  intro c hc
  exact List.mem_takeWhile_imp (List.mem_of_mem_take hc)

theorem matchMSM_some_shape (cs : List Char) (r : Nat × Nat × Nat)
    (h : matchMSM cs = some r) :
    ∃ (m1 m2 s1 s2 sep d1 d2 d3 : Char) (rest : List Char),
      cs = m1 :: m2 :: ':' :: s1 :: s2 :: sep :: d1 :: d2 :: d3 :: rest ∧
      m1.isDigit = true ∧ m2.isDigit = true ∧ s1.isDigit = true ∧ s2.isDigit = true ∧
      (sep = '.' ∨ sep = ',') ∧ d1.isDigit = true ∧ d2.isDigit = true ∧ d3.isDigit = true := by
  unfold matchMSM at h
  split at h
  next m1 m2 c s1 s2 sep d1 d2 d3 rest =>
    split at h
    next hcond =>
      simp only [Bool.and_eq_true, decide_eq_true_eq, Bool.or_eq_true] at hcond
      have hc : c = ':' := by tauto
      subst hc
      exact ⟨m1, m2, s1, s2, sep, d1, d2, d3, rest, rfl, by tauto, by tauto, by tauto,
        by tauto, by tauto, by tauto, by tauto, by tauto⟩
    next => exact absurd h (by simp)
  next => exact absurd h (by simp)

theorem matchColonTail_some_shape (cs : List Char) (r : Nat × Nat × Nat)
    (h : matchColonTail cs = some r) :
    ∃ (copt : List Char) (m1 m2 s1 s2 sep d1 d2 d3 : Char) (rest : List Char),
      cs = copt ++ m1 :: m2 :: ':' :: s1 :: s2 :: sep :: d1 :: d2 :: d3 :: rest ∧
      (copt = [] ∨ copt = [':']) ∧
      m1.isDigit = true ∧ m2.isDigit = true ∧ s1.isDigit = true ∧ s2.isDigit = true ∧
      (sep = '.' ∨ sep = ',') ∧ d1.isDigit = true ∧ d2.isDigit = true ∧ d3.isDigit = true := by
  unfold matchColonTail at h
  split at h
  next rest' =>
    split at h
    next v hv =>
      obtain ⟨m1, m2, s1, s2, sep, d1, d2, d3, rest, heq, hf⟩ :=
        matchMSM_some_shape rest' v hv
      exact ⟨[':'], m1, m2, s1, s2, sep, d1, d2, d3, rest, by rw [heq]; rfl, Or.inr rfl, hf⟩
    next =>
      obtain ⟨m1, m2, s1, s2, sep, d1, d2, d3, rest, heq, hf⟩ :=
        matchMSM_some_shape _ r h
      exact ⟨[], m1, m2, s1, s2, sep, d1, d2, d3, rest, by rw [heq]; rfl, Or.inl rfl, hf⟩
  next =>
    obtain ⟨m1, m2, s1, s2, sep, d1, d2, d3, rest, heq, hf⟩ := matchMSM_some_shape _ r h
    exact ⟨[], m1, m2, s1, s2, sep, d1, d2, d3, rest, by rw [heq]; rfl, Or.inl rfl, hf⟩

theorem tryHoursLen_some_shape : ∀ (k : Nat) (cs : List Char) (r : Option Nat × Nat × Nat × Nat),
    k ≤ digitPrefixLen cs → tryHoursLen k cs = some r → TimestampShape cs
  | 0, cs, r, _, h => by
    unfold tryHoursLen at h
    split at h
    next m s ms hm =>
      obtain ⟨copt, m1, m2, s1, s2, sep, d1, d2, d3, rest, heq, hf⟩ :=
        matchColonTail_some_shape cs _ hm
      exact ⟨[], copt, m1, m2, s1, s2, sep, d1, d2, d3, rest, by rw [heq]; rfl, rfl, hf⟩
    next => exact absurd h (by simp)
  | k + 1, cs, r, hk, h => by
    unfold tryHoursLen at h
    split at h
    next m s ms hm =>
      obtain ⟨copt, m1, m2, s1, s2, sep, d1, d2, d3, rest, heq, hcopt, hf⟩ :=
        matchColonTail_some_shape _ _ hm
      refine ⟨cs.take (k + 1), copt, m1, m2, s1, s2, sep, d1, d2, d3, rest, ?_,
        take_digits_of_le cs (k + 1) hk, hcopt, hf⟩
      conv_lhs => rw [← List.take_append_drop (k + 1) cs]
      rw [heq, List.append_assoc]
    next hm =>
      exact tryHoursLen_some_shape k cs r (le_trans (Nat.le_succ _) hk) h

theorem matchMSM_eq_some (m1 m2 s1 s2 sep d1 d2 d3 : Char) (rest : List Char)
    (h1 : m1.isDigit = true) (h2 : m2.isDigit = true) (h3 : s1.isDigit = true)
    (h4 : s2.isDigit = true) (hsep : sep = '.' ∨ sep = ',') (h5 : d1.isDigit = true)
    (h6 : d2.isDigit = true) (h7 : d3.isDigit = true) :
    matchMSM (m1 :: m2 :: ':' :: s1 :: s2 :: sep :: d1 :: d2 :: d3 :: rest) =
      some (natOfDigits [m1, m2], natOfDigits [s1, s2], natOfDigits [d1, d2, d3]) := by
  rw [matchMSM, if_pos]
  rcases hsep with rfl | rfl <;> simp [h1, h2, h3, h4, h5, h6, h7]

theorem matchColonTail_isSome (copt : List Char) (m1 m2 s1 s2 sep d1 d2 d3 : Char)
    (rest : List Char) (hcopt : copt = [] ∨ copt = [':'])
    (h1 : m1.isDigit = true) (h2 : m2.isDigit = true) (h3 : s1.isDigit = true)
    (h4 : s2.isDigit = true) (hsep : sep = '.' ∨ sep = ',') (h5 : d1.isDigit = true)
    (h6 : d2.isDigit = true) (h7 : d3.isDigit = true) :
    (matchColonTail
      (copt ++ m1 :: m2 :: ':' :: s1 :: s2 :: sep :: d1 :: d2 :: d3 :: rest)).isSome = true := by
  have hmsm := matchMSM_eq_some m1 m2 s1 s2 sep d1 d2 d3 rest h1 h2 h3 h4 hsep h5 h6 h7
  rcases hcopt with rfl | rfl
  · rw [List.nil_append]
    unfold matchColonTail
    split
    next rest2 heq =>
      have hm1 : m1 = ':' := by
        injection heq with ha hb
      rw [hm1] at h1
      exact absurd h1 (by decide)
    next => rw [hmsm]; rfl
  · rw [List.cons_append, List.nil_append]
    unfold matchColonTail
    split
    next rest2 heq =>
      have hr : rest2 = m1 :: m2 :: ':' :: s1 :: s2 :: sep :: d1 :: d2 :: d3 :: rest := by
        injection heq with ha hb
        exact hb.symm
      rw [hr, hmsm]
      rfl
    next hno =>
      exact absurd rfl (hno (m1 :: m2 :: ':' :: s1 :: s2 :: sep :: d1 :: d2 :: d3 :: rest))

theorem tryHoursLen_isSome : ∀ (k : Nat) (cs : List Char),
    (∃ j, j ≤ k ∧ (matchColonTail (cs.drop j)).isSome = true) →
    (tryHoursLen k cs).isSome = true
  | 0, cs, ⟨j, hj, hm⟩ => by
    have hj0 : j = 0 := by omega
    subst hj0
    rw [List.drop_zero] at hm
    obtain ⟨⟨m, s, ms⟩, hr⟩ := Option.isSome_iff_exists.mp hm
    unfold tryHoursLen
    rw [hr]
    rfl
  | k + 1, cs, ⟨j, hj, hm⟩ => by
    unfold tryHoursLen
    cases hcase : matchColonTail (cs.drop (k + 1)) with
    | some r => rcases r with ⟨m, s, ms⟩; rfl
    | none =>
      have hjk : j ≤ k := by
        rcases Nat.lt_or_ge j (k + 1) with hlt | hge
        · omega
        · have hj1 : j = k + 1 := by omega
          rw [hj1, hcase] at hm
          exact absurd hm (by simp)
      exact tryHoursLen_isSome k cs ⟨j, hjk, hm⟩

/-- The backtracking matcher succeeds exactly on lists of the declarative
pattern shape. -/
theorem timestampMatch_isSome_iff (cs : List Char) :
    (timestampMatch cs).isSome = true ↔ TimestampShape cs := by
  constructor
  · intro h
    obtain ⟨r, hr⟩ := Option.isSome_iff_exists.mp h
    exact tryHoursLen_some_shape (digitPrefixLen cs) cs r le_rfl hr
  · rintro ⟨hd, copt, m1, m2, s1, s2, sep, d1, d2, d3, rest, rfl, hhd, hcopt,
      h1, h2, h3, h4, hsep, h5, h6, h7⟩
    rw [timestampMatch, List.append_assoc]
    rw [← timestampMatch]
    apply tryHoursLen_isSome
    refine ⟨hd.length, le_digitPrefixLen_append hd _ hhd, ?_⟩
    rw [List.drop_left]
    exact matchColonTail_isSome copt m1 m2 s1 s2 sep d1 d2 d3 rest hcopt
      h1 h2 h3 h4 hsep h5 h6 h7

/-! ### The single-pass tag stripper agrees with the index-based description -/

theorem range_find?_eq_some (p : Nat → Bool) :
    ∀ (n j : Nat), j < n → p j = true → (∀ i, i < j → p i = false) →
      (List.range n).find? p = some j := by
  intro n
  induction n with
  | zero => intro j hj _ _; omega
  | succ n ih =>
    intro j hj hp hmin
    rw [List.range_succ, List.find?_append]
    rcases Nat.lt_or_ge j n with hlt | hge
    · rw [ih j hlt hp hmin]
      rfl
    · have hj' : j = n := by omega
      subst hj'
      have h1 : (List.range j).find? p = none := by
        rw [List.find?_eq_none]
        intro x hx
        rw [List.mem_range] at hx
        simp [hmin x hx]
      rw [h1]
      simp [hp]

theorem findSome?_of_map {α β γ : Type} (g : α → β) (f : β → Option γ) (l : List α) :
    (l.map g).findSome? f = l.findSome? (fun a => f (g a)) := by
  induction l with
  | nil => rfl
  | cons a l ih =>
    rw [List.map_cons, List.findSome?_cons, List.findSome?_cons]
    cases f (g a) <;> simp [ih]

theorem findSome?_option_map {α β : Type} (g : α → β) (f : Nat → Option α) (l : List Nat) :
    l.findSome? (fun i => (f i).map g) = (l.findSome? f).map g := by
  induction l with
  | nil => rfl
  | cons a l ih =>
    rw [List.findSome?_cons, List.findSome?_cons]
    cases f a <;> simp [ih]

theorem all_take_getD (p : Char → Bool) :
    ∀ (l : List Char) (k j : Nat), (l.take k).all p = true → j < k → j < l.length →
      p (l.getD j ' ') = true
  | [], _, j, _, _, hjl => by simp at hjl
  | c :: l, k, j, hall, hj, hjl => by
    cases k with
    | zero => omega
    | succ k =>
      rw [List.take_succ_cons, List.all_cons, Bool.and_eq_true] at hall
      cases j with
      | zero => simpa using hall.1
      | succ j =>
        rw [List.getD_cons_succ]
        exact all_take_getD p l k j hall.2 (by omega) (by simpa using hjl)

theorem findGt_some (cs : List Char) (r : List Char) (h : findGt cs = some r) :
    ∃ k, k < cs.length ∧ cs.getD k ' ' = '>' ∧ ((cs.take k).all okChar) = true ∧
      r = cs.drop (k + 1) := by
  induction cs generalizing r with
  | nil => simp [findGt] at h
  | cons c rest ih =>
    rw [findGt] at h
    by_cases hgt : c = '>'
    · rw [if_pos hgt] at h
      refine ⟨0, by simp, by simp [hgt], by simp, ?_⟩
      injection h with h'
      simpa using h'.symm
    · rw [if_neg hgt] at h
      by_cases hnl : c = '\n'
      · rw [if_pos hnl] at h
        cases h
      · rw [if_neg hnl] at h
        obtain ⟨k, hk, hgt', hall, hr⟩ := ih r h
        refine ⟨k + 1, by simp; omega, by simpa using hgt', ?_, by simpa using hr⟩
        rw [List.take_succ_cons, List.all_cons, Bool.and_eq_true]
        exact ⟨by simp [okChar, hgt, hnl], hall⟩

theorem findGt_none (cs : List Char) (h : findGt cs = none) :
    ∀ k, k < cs.length → cs.getD k ' ' = '>' → ((cs.take k).all okChar) = false := by
  induction cs with
  | nil => intro k hk; simp at hk
  | cons c rest ih =>
    rw [findGt] at h
    by_cases hgt : c = '>'
    · rw [if_pos hgt] at h
      cases h
    · rw [if_neg hgt] at h
      intro k hk hgtk
      cases k with
      | zero =>
        rw [List.getD_cons_zero] at hgtk
        exact absurd hgtk hgt
      | succ k =>
        rw [List.take_succ_cons, List.all_cons]
        by_cases hnl : c = '\n'
        · simp [okChar, hnl]
        · rw [if_neg hnl] at h
          have hrest := ih h k (by simpa using hk) (by simpa using hgtk)
          simp [hrest]

theorem specSpanEnd_zero_of_findGt (rest r : List Char) (h : findGt rest = some r) :
    ∃ k, specSpanEnd ('<' :: rest) 0 = some (k + 1) ∧ r = rest.drop (k + 1) ∧
      k < rest.length := by
  obtain ⟨k, hk, hgt, hall, hr⟩ := findGt_some rest r h
  refine ⟨k, ?_, hr, hk⟩
  rw [specSpanEnd]
  apply range_find?_eq_some
  · show k + 1 < ('<' :: rest).length
    simp only [List.length_cons]
    omega
  · have hall' : ((rest.take k).all (fun c => !decide (c = '>') && !decide (c = '\n'))) =
        true := by simpa [okChar] using hall
    rw [List.getD_eq_getElem?_getD] at hgt
    simp [List.getD_cons_succ, hgt, hall']
  · intro i hi
    cases i with
    | zero => simp
    | succ j =>
      have hj : j < k := by omega
      by_cases hg2 : rest.getD j ' ' = '>'
      · have hok := all_take_getD okChar rest k j hall hj (by omega)
        rw [okChar] at hok
        simp only [Bool.and_eq_true, Bool.not_eq_eq_eq_not, Bool.not_true,
          decide_eq_false_iff_not] at hok
        exact absurd hg2 hok.1
      · rw [List.getD_eq_getElem?_getD] at hg2
        simp [List.getD_cons_succ, hg2]

theorem specSpanEnd_zero_none (rest : List Char) (h : findGt rest = none) :
    specSpanEnd ('<' :: rest) 0 = none := by
  rw [specSpanEnd, List.find?_eq_none]
  intro j hj
  rw [List.mem_range] at hj
  cases j with
  | zero => simp
  | succ k =>
    by_cases hgt : rest.getD k ' ' = '>'
    · have hfail := findGt_none rest h k (by simpa using hj) hgt
      have hfail' : ((rest.take k).all (fun c => !decide (c = '>') && !decide (c = '\n'))) =
          false := by simpa [okChar] using hfail
      rw [List.getD_eq_getElem?_getD] at hgt
      simp [List.getD_cons_succ, hgt, hfail']
    · rw [List.getD_eq_getElem?_getD] at hgt
      simp [List.getD_cons_succ, hgt]

theorem specSpanEnd_cons (c : Char) (cs : List Char) (i : Nat) :
    specSpanEnd (c :: cs) (i + 1) = (specSpanEnd cs i).map (fun j => j + 1) := by
  rw [specSpanEnd, specSpanEnd]
  rw [show (c :: cs).length = cs.length + 1 from rfl, List.range_succ_eq_map]
  rw [List.find?_cons_of_neg _ (by simp)]
  rw [List.find?_map]
  have hpred : ((fun j => decide (i + 1 < j) && decide ((c :: cs).getD j ' ' = '>') &&
      (((c :: cs).drop (i + 1 + 1)).take (j - (i + 1) - 1)).all
        (fun ch => !decide (ch = '>') && !decide (ch = '\n'))) ∘ Nat.succ) =
      (fun j => decide (i < j) && decide (cs.getD j ' ' = '>') &&
      ((cs.drop (i + 1)).take (j - i - 1)).all
        (fun ch => !decide (ch = '>') && !decide (ch = '\n'))) := by
    funext j
    simp only [Function.comp_apply, Nat.succ_eq_add_one, List.getD_cons_succ,
      List.drop_succ_cons, show j + 1 - (i + 1) - 1 = j - i - 1 from by omega,
      show (i + 1 < j + 1) = (i < j) from by simp]
  rw [hpred]

theorem specLeftmost_cons_found (rest : List Char) (j : Nat)
    (hspan : specSpanEnd ('<' :: rest) 0 = some j) :
    specLeftmost ('<' :: rest) = some (0, j) := by
  rw [specLeftmost]
  rw [show ('<' :: rest).length = rest.length + 1 from rfl, List.range_succ_eq_map,
    List.findSome?_cons]
  simp [hspan]

theorem specLeftmost_cons_shift (c : Char) (cs : List Char)
    (h0 : (if (c :: cs).getD 0 ' ' = '<' then
        (specSpanEnd (c :: cs) 0).map (fun j => (0, j)) else none) = none) :
    specLeftmost (c :: cs) = (specLeftmost cs).map (fun p => (p.1 + 1, p.2 + 1)) := by
  rw [specLeftmost, specLeftmost]
  rw [show (c :: cs).length = cs.length + 1 from rfl, List.range_succ_eq_map,
    List.findSome?_cons]
  simp only [h0]
  rw [findSome?_of_map, ← findSome?_option_map]
  congr 1
  funext a
  simp only [List.getD_cons_succ, Nat.succ_eq_add_one, specSpanEnd_cons]
  by_cases hca : cs.getD a ' ' = '<'
  · simp only [if_pos hca, Option.map_map]
    cases specSpanEnd cs a <;> rfl
  · rw [List.getD_eq_getElem?_getD] at hca
    simp [hca]

theorem specLeftmost_lt (cs : List Char) (i j : Nat) (h : specLeftmost cs = some (i, j)) :
    j < cs.length ∧ i < j := by
  rw [specLeftmost] at h
  obtain ⟨a, ha, hfa⟩ := List.exists_of_findSome?_eq_some h
  rw [List.mem_range] at ha
  by_cases hc : cs.getD a ' ' = '<'
  · rw [if_pos hc] at hfa
    cases hspan : specSpanEnd cs a with
    | none => rw [hspan] at hfa; cases hfa
    | some jj =>
      rw [hspan] at hfa
      simp only [Option.map_some', Option.some.injEq, Prod.mk.injEq] at hfa
      obtain ⟨rfl, rfl⟩ := hfa
      rw [specSpanEnd] at hspan
      have hp := List.find?_some hspan
      have hmem := List.mem_of_find?_eq_some hspan
      rw [List.mem_range] at hmem
      simp only [Bool.and_eq_true, decide_eq_true_eq] at hp
      exact ⟨hmem, hp.1.1⟩
  · rw [if_neg hc] at hfa
    cases hfa

theorem specStripAux_of_none (fuel : Nat) (cs : List Char) (h : specLeftmost cs = none) :
    specStripAux fuel cs = cs := by
  cases fuel with
  | zero => rfl
  | succ g => rw [specStripAux, h]

theorem specStripAux_fuel : ∀ (fuel : Nat) (cs : List Char), cs.length ≤ fuel →
    specStripAux (fuel + 1) cs = specStripAux fuel cs
  | 0, cs, h => by
    have hnil : cs = [] := List.length_eq_zero.mp (by omega)
    subst hnil
    rfl
  | g + 1, cs, h => by
    cases hlm : specLeftmost cs with
    | none => rw [specStripAux, hlm, specStripAux, hlm]
    | some p =>
      rcases p with ⟨i, j⟩
      obtain ⟨hjlen, hij⟩ := specLeftmost_lt cs i j hlm
      rw [specStripAux, hlm, specStripAux, hlm]
      simp only [specStripAux_fuel g (cs.drop (j + 1)) (by rw [List.length_drop]; omega)]

theorem specStripAux_cons_skip (fuel : Nat) (c : Char) (rest : List Char)
    (h0 : (if (c :: rest).getD 0 ' ' = '<' then
        (specSpanEnd (c :: rest) 0).map (fun j => (0, j)) else none) = none)
    (hlen : rest.length ≤ fuel) :
    specStripAux (fuel + 1) (c :: rest) = c :: specStripAux fuel rest := by
  have hshift := specLeftmost_cons_shift c rest h0
  cases hlm : specLeftmost rest with
  | none =>
    rw [specStripAux, hshift, hlm]
    rw [specStripAux_of_none fuel rest hlm]
    rfl
  | some p =>
    rcases p with ⟨i, j⟩
    obtain ⟨hjlen, hij⟩ := specLeftmost_lt rest i j hlm
    obtain ⟨g, rfl⟩ : ∃ g, fuel = g + 1 := ⟨fuel - 1, by omega⟩
    have hfs := specStripAux_fuel g (rest.drop (j + 1)) (by rw [List.length_drop]; omega)
    rw [specStripAux, hshift, hlm, specStripAux, hlm]
    simp only [Option.map_some', List.take_succ_cons, List.drop_succ_cons, hfs,
      List.cons_append]

theorem strip_spec_eq : ∀ (fuel : Nat) (cs : List Char), cs.length ≤ fuel →
    stripTagsAux fuel cs = specStripAux fuel cs
  | 0, cs, h => by
    have hnil : cs = [] := List.length_eq_zero.mp (by omega)
    subst hnil
    rfl
  | fuel + 1, cs, h => by
    cases cs with
    | nil => rfl
    | cons c rest =>
      rw [List.length_cons] at h
      by_cases hc : c = '<'
      · subst hc
        cases hfg : findGt rest with
        | some r =>
          obtain ⟨k, hspan, hr, hk⟩ := specSpanEnd_zero_of_findGt rest r hfg
          have hlm := specLeftmost_cons_found rest (k + 1) hspan
          rw [stripTagsAux]
          simp only [hfg]
          rw [specStripAux, hlm]
          simp only [List.take_zero, List.nil_append, List.drop_succ_cons]
          rw [← hr]
          exact strip_spec_eq fuel r (by rw [hr, List.length_drop]; omega)
        | none =>
          have hspan := specSpanEnd_zero_none rest hfg
          have h0 : (if ('<' :: rest).getD 0 ' ' = '<' then
              (specSpanEnd ('<' :: rest) 0).map (fun j => (0, j)) else none) = none := by
            rw [hspan]
            simp
          rw [stripTagsAux]
          simp only [hfg]
          rw [specStripAux_cons_skip fuel '<' rest h0 (by omega)]
          exact congrArg (List.cons '<') (strip_spec_eq fuel rest (by omega))
      · have h0 : (if (c :: rest).getD 0 ' ' = '<' then
            (specSpanEnd (c :: rest) 0).map (fun j => (0, j)) else none) = none := by
          simp [hc]
        rw [stripTagsAux]
        simp only [if_neg hc]
        rw [specStripAux_cons_skip fuel c rest h0 (by omega)]
        exact congrArg (List.cons c) (strip_spec_eq fuel rest (by omega))

/-! ### Python dict semantics: last write wins -/

theorem find?_map_update (d : List (String × String)) (k v : String)
    (hmem : d.any (fun p => decide (p.1 = k)) = true) :
    ((d.map (fun p => if p.1 = k then (k, v) else p)).find?
      (fun p => decide (p.1 = k))) = some (k, v) := by
  induction d with
  | nil => simp at hmem
  | cons p d ih =>
    rw [List.map_cons]
    by_cases hp : p.1 = k
    · rw [if_pos hp]
      rw [List.find?_cons_of_pos _ (by simp)]
    · rw [if_neg hp]
      rw [List.find?_cons_of_neg _ (by simp [hp])]
      apply ih
      rw [List.any_cons] at hmem
      simpa [hp] using hmem

theorem find?_map_update_ne (d : List (String × String)) (k v k' : String) (hne : k' ≠ k) :
    ((d.map (fun p => if p.1 = k then (k, v) else p)).find?
      (fun p => decide (p.1 = k'))) = d.find? (fun p => decide (p.1 = k')) := by
  induction d with
  | nil => rfl
  | cons p d ih =>
    rw [List.map_cons]
    by_cases hp : p.1 = k
    · rw [if_pos hp]
      rw [List.find?_cons_of_neg _ (by simp [Ne.symm hne]),
        List.find?_cons_of_neg _ (by simp [hp, Ne.symm hne])]
      exact ih
    · rw [if_neg hp, List.find?_cons, List.find?_cons, ih]

theorem dictLookup_pyDictInsert (d : List (String × String)) (k v k' : String) :
    dictLookup (pyDictInsert d k v) k' = if k' = k then some v else dictLookup d k' := by
  by_cases hk : k' = k
  · subst hk
    rw [if_pos rfl, pyDictInsert]
    by_cases hmem : d.any (fun p => decide (p.1 = k')) = true
    · rw [if_pos hmem, dictLookup, find?_map_update d k' v hmem]
      rfl
    · rw [if_neg hmem, dictLookup, List.find?_append]
      have h1 : d.find? (fun p => decide (p.1 = k')) = none := by
        rw [List.find?_eq_none]
        intro p hp
        simp only [List.any_eq_true, not_exists, not_and] at hmem
        by_contra hcon
        exact hmem p hp (by simpa using hcon)
      rw [h1]
      simp
  · rw [if_neg hk, pyDictInsert]
    by_cases hmem : d.any (fun p => decide (p.1 = k)) = true
    · rw [if_pos hmem, dictLookup, find?_map_update_ne d k v k' hk, dictLookup]
    · rw [if_neg hmem, dictLookup, List.find?_append, dictLookup]
      cases hf : d.find? (fun p => decide (p.1 = k')) with
      | none =>
        rw [List.find?_cons_of_neg _ (by simpa using fun h => hk h.symm)]
        rfl
      | some p => simp

theorem pyDict_lookup_last : ∀ (ps : List (String × String)) (k : String),
    dictLookup (pyDict ps) k =
      (ps.reverse.find? (fun p => decide (p.1 = k))).map (fun p => p.2) := by
  intro ps
  induction ps using List.reverseRecOn with
  | nil => intro k; rfl
  | append_singleton ps p ih =>
    intro k
    rw [pyDict, List.foldl_append, ← pyDict, List.foldl_cons, List.foldl_nil]
    rw [dictLookup_pyDictInsert, List.reverse_append]
    by_cases hk : k = p.1
    · rw [if_pos hk]
      rw [show [p].reverse ++ ps.reverse = p :: ps.reverse by simp]
      rw [List.find?_cons_of_pos _ (by simp [hk.symm])]
      rfl
    · rw [if_neg hk, ih k]
      rw [show [p].reverse ++ ps.reverse = p :: ps.reverse by simp]
      rw [List.find?_cons_of_neg _ (by simp; exact fun hcon => hk hcon.symm)]

/-! ### The claims -/

/-- C1: timestamp round-trip law.  For every non-negative seconds value `q`,
parsing the string produced by formatting `q` succeeds and yields exactly `q`
rounded to millisecond precision (the rounding performed by formatting), and
that value is within `1/2000` of `q`. -/
theorem spec_c1_roundtrip :
    (∀ q : ℚ, 0 ≤ q →
      parse_timestamp (to_timestamp q) =
        some (((roundHalfEven (q * 1000) : ℤ) : ℚ) / 1000)) ∧
    (∀ q : ℚ, 0 ≤ q →
      |(((roundHalfEven (q * 1000) : ℤ) : ℚ) / 1000) - q| ≤ 1 / 2000) := by
  constructor
  · exact parse_format_eq
  · intro q hq
    have hd := roundHalfEven_dist (q * 1000)
    rw [abs_le] at hd ⊢
    constructor <;> [linarith; linarith]

/-- Witness for C1 at the concrete input 3661.5 seconds. -/
theorem spec_c1_roundtrip_witness :
    0 ≤ (7323/2 : ℚ) ∧
      parse_timestamp (to_timestamp (7323/2)) =
        some (((roundHalfEven ((7323/2 : ℚ) * 1000) : ℤ) : ℚ) / 1000) :=
  ⟨by norm_num, spec_c1_roundtrip.1 (7323/2) (by norm_num)⟩

/-- C4 counterexample: the claim says a match anywhere in the string
suffices, but the source uses `re.match`, which anchors at position 0:
`"x02:03.456"` contains a matching substring from position 1 onward, yet
parsing raises `MalformedTimestamp`. -/
theorem spec_c4_counterexample :
    parse_timestamp "x02:03.456" = none ∧ TimestampShape ("x02:03.456".data.drop 1) := by
  constructor
  · have h : timestampMatch "x02:03.456".data = none := by decide
    simp [parse_timestamp, h]
  · exact ⟨[], [], '0', '2', '0', '3', '.', '4', '5', '6', [], by decide, by decide,
      Or.inl rfl, by decide, by decide, by decide, by decide, Or.inl rfl, by decide,
      by decide, by decide⟩

/-- C4 (amended): parsing raises `MalformedTimestamp` if and only if the
timestamp pattern does not match at the start of the string (`re.match`
semantics: the match must begin at position 0; no anchoring at the end); in
particular `"bad"` raises. -/
theorem spec_c4_error_iff :
    (∀ s : String, parse_timestamp s = none ↔ ¬ TimestampShape s.data) ∧
    parse_timestamp "bad" = none := by
  constructor
  · intro s
    rw [← timestampMatch_isSome_iff s.data, parse_timestamp]
    cases h : timestampMatch s.data with
    | none => simp [h]
    | some r =>
      rcases r with ⟨a, m, sec, ms⟩
      simp [h]
  · have h : timestampMatch "bad".data = none := by decide
    simp [parse_timestamp, h]

/-- C5: the value produced by a successful parse is
`H*3600 + M*60 + S + mmm/1000` over the captured groups, with an absent hour
group read as 0; in particular `"01:02:03.456"` parses to 3723.456 and
`"02:03.456"` parses to 123.456. -/
theorem spec_c5_parse_value :
    parse_timestamp "01:02:03.456" = some (3723456 / 1000) ∧
    parse_timestamp "02:03.456" = some (123456 / 1000) ∧
    (∀ (s : String) (h : Option Nat) (m sec ms : Nat),
      timestampMatch s.data = some (h, m, sec, ms) →
      parse_timestamp s =
        some ((h.getD 0 : ℚ) * 3600 + m * 60 + sec + (ms : ℚ) / 1000)) := by
  refine ⟨?_, ?_, ?_⟩
  · have h : timestampMatch "01:02:03.456".data = some (some 1, 2, 3, 456) := by decide
    simp only [parse_timestamp, h, Option.getD_some, to_seconds, Option.some.injEq]
    norm_num
  · have h : timestampMatch "02:03.456".data = some (none, 2, 3, 456) := by decide
    simp only [parse_timestamp, h, Option.getD_none, to_seconds, Option.some.injEq]
    norm_num
  · intro s h m sec ms hm
    simp only [parse_timestamp, hm, to_seconds]

/-- Witness for C5's general clause at a concrete matched string. -/
theorem spec_c5_parse_value_witness :
    timestampMatch "1:02:03.456".data = some (some 1, 2, 3, 456) ∧
      parse_timestamp "1:02:03.456" =
        some (((some 1 : Option Nat).getD 0 : ℚ) * 3600 + (2 : ℕ) * 60 + (3 : ℕ) +
          ((456 : ℕ) : ℚ) / 1000) :=
  ⟨by decide, spec_c5_parse_value.2.2 "1:02:03.456" (some 1) 2 3 456 (by decide)⟩

/-- C6: formatting a non-negative seconds value produces
`HH:MM:SS.mmm` with `HH = floor(q/3600)` zero-padded to at least two digits,
`MM = floor(q/60) - HH*60` zero-padded to two digits, and `SS.mmm` the
remaining seconds rounded to exactly three decimal digits with a two-digit
integer part; in particular 3661.5 formats as `"01:01:01.500"`. -/
theorem spec_c6_format :
    (∀ q : ℚ, 0 ≤ q →
      to_timestamp q = String.mk
        (padZeros 2 (natToDigits (⌊q / 3600⌋).toNat) ++ ':' ::
          (padZeros 2 (natToDigits ((⌊q / 60⌋ - 60 * ⌊q / 3600⌋).toNat)) ++ ':' ::
            (padZeros 2 (natToDigits
                ((roundHalfEven ((q - ((⌊q / 60⌋ : ℤ) : ℚ) * 60) * 1000)).toNat / 1000)) ++
              '.' :: padZeros 3 (natToDigits
                ((roundHalfEven ((q - ((⌊q / 60⌋ : ℤ) : ℚ) * 60) * 1000)).toNat % 1000)))))) ∧
    to_timestamp (7323/2) = "01:01:01.500" := by
  have hmain : ∀ q : ℚ, 0 ≤ q →
      to_timestamp q = String.mk
        (padZeros 2 (natToDigits (⌊q / 3600⌋).toNat) ++ ':' ::
          (padZeros 2 (natToDigits ((⌊q / 60⌋ - 60 * ⌊q / 3600⌋).toNat)) ++ ':' ::
            (padZeros 2 (natToDigits
                ((roundHalfEven ((q - ((⌊q / 60⌋ : ℤ) : ℚ) * 60) * 1000)).toNat / 1000)) ++
              '.' :: padZeros 3 (natToDigits
                ((roundHalfEven ((q - ((⌊q / 60⌋ : ℤ) : ℚ) * 60) * 1000)).toNat % 1000))))) := by
    intro q hq
    have hH0 : 0 ≤ ⌊q / 3600⌋ := Int.floor_nonneg.mpr (div_nonneg hq (by norm_num))
    have hM0 : 0 ≤ ⌊q / 60⌋ - 60 * ⌊q / 3600⌋ := minutes_lb q hq
    have hmilli0 : 0 ≤ roundHalfEven ((q - ((⌊q / 60⌋ : ℤ) : ℚ) * 60) * 1000) :=
      roundHalfEven_nonneg _ (by nlinarith [seconds_lb q])
    have hmi : ((roundHalfEven ((q - ((⌊q / 60⌋ : ℤ) : ℚ) * 60) * 1000)).toNat : ℤ) =
        roundHalfEven ((q - ((⌊q / 60⌋ : ℤ) : ℚ) * 60) * 1000) := Int.toNat_of_nonneg hmilli0
    rw [to_timestamp]
    exact congrArg String.mk (toTimestampChars_eq q ⌊q / 3600⌋ (⌊q / 60⌋ - 60 * ⌊q / 3600⌋)
      (roundHalfEven ((q - ((⌊q / 60⌋ : ℤ) : ℚ) * 60) * 1000)).toNat
      (pyInt_of_nonneg _ (div_nonneg hq (by norm_num)))
      (minutes_eq q hq)
      (by rw [seconds_expr_eq q, hmi])
      hH0 hM0)
  refine ⟨hmain, ?_⟩
  rw [hmain (7323/2) (by norm_num)]
  have e1 : ⌊(7323/2 : ℚ) / 3600⌋ = 1 := by norm_num
  have e2 : ⌊(7323/2 : ℚ) / 60⌋ = 61 := by norm_num
  rw [e1, e2]
  have e3 : roundHalfEven (((7323/2 : ℚ) - ((61 : ℤ) : ℚ) * 60) * 1000) = 1500 := by
    rw [roundHalfEven]
    norm_num
  rw [e3]
  decide

/-- Witness for C6 at the concrete input 3661.5 seconds. -/
theorem spec_c6_format_witness :
    0 ≤ (7323/2 : ℚ) ∧
      to_timestamp (7323/2 : ℚ) = String.mk
        (padZeros 2 (natToDigits (⌊(7323/2 : ℚ) / 3600⌋).toNat) ++ ':' ::
          (padZeros 2 (natToDigits
              ((⌊(7323/2 : ℚ) / 60⌋ - 60 * ⌊(7323/2 : ℚ) / 3600⌋).toNat)) ++ ':' ::
            (padZeros 2 (natToDigits
                ((roundHalfEven (((7323/2 : ℚ) - ((⌊(7323/2 : ℚ) / 60⌋ : ℤ) : ℚ) * 60) *
                  1000)).toNat / 1000)) ++
              '.' :: padZeros 3 (natToDigits
                ((roundHalfEven (((7323/2 : ℚ) - ((⌊(7323/2 : ℚ) / 60⌋ : ℤ) : ℚ) * 60) *
                  1000)).toNat % 1000))))) :=
  ⟨by norm_num, spec_c6_format.1 (7323/2) (by norm_num)⟩

/-- C10: the colon after the hour digits is itself optional in the accepted
pattern, so `"102:03.456"` is accepted (hour digits running directly into the
minutes) and parses to 1*3600 + 2*60 + 3.456 = 3723.456. -/
theorem spec_c10_hour_colon_optional :
    parse_timestamp "102:03.456" = some (3723456 / 1000) := by
  have h : timestampMatch "102:03.456".data = some (some 1, 2, 3, 456) := by decide
  simp only [parse_timestamp, h, Option.getD_some, to_seconds, Option.some.injEq]
  norm_num

/-- C2: the per-span rewrite rule.  For family `c` the wrapping tag is
dropped and the content becomes `<font color="COLOR">DECODED</font>`; for the
other families the wrapping tag is preserved around the font span; the
decoded content is the captured text with HTML entities decoded.  The two
end-to-end examples of the spec hold. -/
theorem spec_c2_markup_rewrite :
    (∀ v content : String, replace_color 'c' v content =
      "<font color=\"" ++ v ++ "\">" ++ htmlUnescape content ++ "</font>") ∧
    (∀ (tag : Char) (v content : String), tag ≠ 'c' →
      replace_color tag v content =
        "<" ++ String.mk [tag] ++ ">" ++ "<font color=\"" ++ v ++ "\">" ++
          htmlUnescape content ++ "</font>" ++ "</" ++ String.mk [tag] ++ ">") ∧
    to_srt_formatted ["Hello <c.red>world</c>"] [("red", "#ff0000")] =
      "Hello <font color=\"#ff0000\">world</font>" ∧
    to_srt_formatted ["<i.blue>Hi</i>"] [("blue", "blue")] =
      "<i><font color=\"blue\">Hi</font></i>" := by
  refine ⟨?_, ?_, by decide, by decide⟩
  · intro v content
    rw [replace_color, if_pos rfl, if_pos rfl]
    apply String.ext
    simp [String.data_append]
  · intro tag v content htag
    rw [replace_color, if_neg htag, if_neg htag]
    apply String.ext
    simp [String.data_append]

/-- Witness for C2's tag-preserving clause at family `i`. -/
theorem spec_c2_markup_rewrite_witness :
    ('i' : Char) ≠ 'c' ∧
      replace_color 'i' "blue" "Hi" =
        "<" ++ String.mk ['i'] ++ ">" ++ "<font color=\"" ++ "blue" ++ "\">" ++
          htmlUnescape "Hi" ++ "</font>" ++ "</" ++ String.mk ['i'] ++ ">" :=
  ⟨by decide, spec_c2_markup_rewrite.2.1 'i' "blue" "Hi" (by decide)⟩

/-- C3 counterexample: the claim counts the unqualified span `<i>Hi</i>`
(dotted class qualifier optional) as recognized, but the detection pattern of
the source requires the dot, so the cue falls back to the plain tag-stripped
text `"Hi"` even though a span in the claim's sense is present. -/
theorem spec_c3_counterexample :
    specSearchTag 'i' "<i>Hi</i>".data = true ∧
    to_srt_formatted ["<i>Hi</i>"] [("blue", "blue")] = "Hi" ∧
    caption_text ["<i>Hi</i>"] = "Hi" :=
  ⟨by decide, by decide, by decide⟩

/-- C3 (amended): `to_srt_formatted` returns the cue's plain tag-stripped
text whenever none of the four families has a span of the detection form
`<FAMILY.anything>...</FAMILY>` (dotted qualifier required) in the raw text;
in particular a cue whose only span is the unqualified `<i>Hi</i>` falls back
to the plain text. -/
theorem spec_c3_fallback :
    (∀ (lines : List String) (colours : List (String × String)),
      (∀ t ∈ (['c', 'i', 'b', 'u'] : List Char),
        searchTag t (raw_text lines).data = false) →
      to_srt_formatted lines colours = caption_text lines) ∧
    to_srt_formatted ["<i>Hi</i>"] [("blue", "blue")] = caption_text ["<i>Hi</i>"] := by
  refine ⟨?_, by decide⟩
  intro lines colours h
  have hc := h 'c' (by simp)
  have hi := h 'i' (by simp)
  have hb := h 'b' (by simp)
  have hu := h 'u' (by simp)
  rw [to_srt_formatted]
  simp only [List.foldl_cons, List.foldl_nil, hc, hi, hb, hu, Bool.false_eq_true,
    if_false, if_true]

/-- Witness for C3's general clause on a cue with no markup at all. -/
theorem spec_c3_fallback_witness :
    (∀ t ∈ (['c', 'i', 'b', 'u'] : List Char),
      searchTag t (raw_text ["plain"]).data = false) ∧
    to_srt_formatted ["plain"] [] = caption_text ["plain"] :=
  ⟨by decide, spec_c3_fallback.1 ["plain"] [] (by decide)⟩

/-- C7: the derived `text` property equals `raw_text` with every substring
matching `<...>` removed under shortest-match semantics, deleting the
leftmost match first (the index-based spec reading `specCleanTags`). -/
theorem spec_c7_text_strips_tags (lines : List String) :
    caption_text lines = specCleanTags (raw_text lines) := by
  rw [caption_text, clean_cue_tags, specCleanTags]
  exact congrArg String.mk (strip_spec_eq _ _ le_rfl)

/-- C8: setting the cue text fails exactly on non-string values; on failure
the line list is unchanged, and on a string the line list is replaced by the
value split on line breaks. -/
theorem spec_c8_text_setter :
    ∀ (c : Caption) (v : PyVal),
      ((set_text c v).2.isSome = true ↔ v.isStr = false) ∧
      (v.isStr = false → (set_text c v).1 = c) ∧
      (∀ s : String, v = PyVal.str s → (set_text c v).1 = { c with lines := splitlines s }) := by
  intro c v
  cases v with
  | str s => simp [set_text, PyVal.isStr]
  | int n => simp [set_text, PyVal.isStr]
  | noneVal => simp [set_text, PyVal.isStr]
  | listVal es => simp [set_text, PyVal.isStr]

/-- Witness for C8 at a concrete caption and a non-string value. -/
theorem spec_c8_text_setter_witness :
    ((PyVal.int 3).isStr = false) ∧
      (set_text ⟨0, 0, none, ["x"]⟩ (PyVal.int 3)).1 = (⟨0, 0, none, ["x"]⟩ : Caption) :=
  ⟨rfl, (spec_c8_text_setter ⟨0, 0, none, ["x"]⟩ (PyVal.int 3)).2.1 rfl⟩

/-- C9: duplicate class names in the style text resolve last-write-wins: the
mapping assigns each class the colour of the last matched rule, and the
concrete duplicate example resolves to the second colour. -/
theorem spec_c9_duplicate_class_last_wins :
    (∀ (lines : List String) (k : String),
      dictLookup (style_colours lines) k =
        (((findallColours (style_text lines).data).map
            (fun p => (p.1, removeSpaces p.2))).reverse.find?
          (fun p => decide (p.1 = k))).map (fun p => p.2)) ∧
    dictLookup (style_colours
      ["::cue(.red) \x7b color: #00f; \x7d ::cue(.red) \x7b color:#0ff; \x7d"]) "red" =
      some "#0ff" := by
  refine ⟨?_, by decide⟩
  intro lines k
  rw [style_colours, pyDict_lookup_last]
